import Mathlib

/-!
# translate_seed: the interactive seed prompt

A shallow embedding of `internal/prompt/prompt.go` (functions `collapseSpace` and `Seed`)
together with the parts of the Go standard library the two functions call
(`unicode.IsSpace`, `strings.TrimSpace`, `strings.Count`, `len`, `encoding/hex`).

Modelling conventions.

* A Go string is represented by the sequence of code points a `range` loop yields over it
  (`GoString = List Char`); a byte that is not part of a valid UTF-8 sequence is seen by
  `range`, and here, as U+FFFD.  `collapseSpace` rebuilds its result from these code points, so
  what `Seed` measures and decodes after line 118 is the UTF-8 encoding of the modelled text:
  `len` is the length of that encoding and the hex decoder works on its bytes.
* A byte is a natural number below 256; a byte slice is a `List Nat`.
* `walletseed.DecodeFrenchUserInput` is not part of the sources at hand.  `Seed` takes it as a
  parameter, so every result below holds for any mnemonic decoder.
* Standard input is the list of lines that `bufio.Scanner` has still to deliver; at end of
  input the list is empty.  The lines one iteration has not scanned are left for the scanner
  of the next iteration, as with a terminal that supplies one line per read; what a scanner
  reads ahead and loses, and lines beyond its token limit, are not modelled.  Text written to
  standard output is recorded as a list of events.
-/

namespace TranslateSeed

/-! ## Strings and bytes -/

/-- A Go string as the sequence of its code points. -/
abbrev GoString := List Char

/-- The predicate `unicode.IsSpace`: the Latin-1 cases are listed one by one, the remaining
code points are those of the Unicode `White_Space` table. -/
def IsSpace (r : Char) : Bool :=
  let v := r.toNat
  if v ≤ 0xFF then
    v == 0x09 || v == 0x0A || v == 0x0B || v == 0x0C || v == 0x0D || v == 0x20 ||
      v == 0x85 || v == 0xA0
  else
    v == 0x1680 || (0x2000 ≤ v && v ≤ 0x200A) || v == 0x2028 || v == 0x2029 ||
      v == 0x202F || v == 0x205F || v == 0x3000

/-- The UTF-8 encoding of one code point (`utf8.EncodeRune`), as a list of bytes. -/
def encodeRune (r : Char) : List Nat :=
  let v := r.toNat
  if v < 0x80 then [v]
  else if v < 0x800 then [0xC0 + v / 0x40, 0x80 + v % 0x40]
  else if v < 0x10000 then [0xE0 + v / 0x1000, 0x80 + v / 0x40 % 0x40, 0x80 + v % 0x40]
  else [0xF0 + v / 0x40000, 0x80 + v / 0x1000 % 0x40, 0x80 + v / 0x40 % 0x40, 0x80 + v % 0x40]

/-- The bytes of a string: the conversion `[]byte(s)`. -/
def bytes (s : GoString) : List Nat :=
  s.flatMap encodeRune

/-- The builtin `len` on a string: its number of bytes. -/
def len (s : GoString) : Nat :=
  (bytes s).length

/-- The function `strings.TrimSpace`: the string without its leading and trailing white space,
as defined by Unicode. -/
def TrimSpace (s : GoString) : GoString :=
  (s.dropWhile IsSpace).rdropWhile IsSpace

/-- The call `strings.Count(s, " ")`: the number of ASCII spaces in `s`. -/
def CountSpace (s : GoString) : Nat :=
  s.count ' '

/-! ## `collapseSpace` (prompt.go, lines 176-193) -/

/-- The body of the `range` loop of `collapseSpace`, run over what is left of the input:
`whiteSpace` and `out` are the two local variables of the function. -/
def collapseSpaceLoop : Bool → GoString → GoString → GoString
  | _, out, [] => out
  | whiteSpace, out, c :: rest =>
    if IsSpace c then
      collapseSpaceLoop true (if !whiteSpace then out ++ [' '] else out) rest
    else
      collapseSpaceLoop false (out ++ [c]) rest

/-- The function `collapseSpace`: replaces any repeated area of whitespace with a single space
character. -/
def collapseSpace (s : GoString) : GoString :=
  collapseSpaceLoop false [] s

/-! ## `encoding/hex` -/

/-- The table `reverseHexTable` of `encoding/hex`: the value of a hexadecimal digit, `0xff`
for any other byte. -/
def reverseHexTable (b : Nat) : Nat :=
  if 0x30 ≤ b ∧ b ≤ 0x39 then b - 0x30
  else if 0x61 ≤ b ∧ b ≤ 0x66 then b - 0x61 + 10
  else if 0x41 ≤ b ∧ b ≤ 0x46 then b - 0x41 + 10
  else 0xff

/-- The errors of `Seed`'s two decoders. -/
inductive SeedError
  /-- The error `hex.InvalidByteError`. -/
  | invalidByte (b : Nat)
  /-- The error `hex.ErrLength`. -/
  | errLength
  /-- An error returned by the mnemonic decoder, with its text. -/
  | mnemonic (msg : GoString)
deriving DecidableEq, Repr

/-- The function `hex.Decode`: the bytes decoded before the first problem, and the error if
there was one.  Two digits give one byte; a lone last digit is `ErrLength`, unless it is not
a digit at all. -/
def Decode : List Nat → List Nat × Option SeedError
  | [] => ([], none)
  | [p] =>
    if reverseHexTable p > 0x0f then ([], some (.invalidByte p)) else ([], some .errLength)
  | p :: q :: rest =>
    let a := reverseHexTable p
    let b := reverseHexTable q
    if a > 0x0f then ([], some (.invalidByte p))
    else if b > 0x0f then ([], some (.invalidByte q))
    else (((a <<< 4) % 0x100 ||| b) :: (Decode rest).1, (Decode rest).2)

/-- The function `hex.DecodeString`. -/
def DecodeString (s : GoString) : List Nat × Option SeedError :=
  Decode (bytes s)

/-- The constant `hextable` of `encoding/hex`, as a function of the index. -/
def hextable (i : Nat) : Char :=
  "0123456789abcdef".toList.getD i '0'

/-- The function `hex.EncodeToString`: the lowercase hexadecimal rendering of a byte
sequence. -/
def EncodeToString : List Nat → GoString
  | [] => []
  | v :: rest => hextable (v >>> 4) :: hextable (v &&& 0x0f) :: EncodeToString rest

/-! ## `Seed` (prompt.go, lines 99-150) -/

/-- The constant `hdkeychain.MinSeedBytes`. -/
def MinSeedBytes : Nat := 16

/-- The constant `hdkeychain.MaxSeedBytes`. -/
def MaxSeedBytes : Nat := 64

/-- The mnemonic decoder `walletseed.DecodeFrenchUserInput`, a parameter of the model: it
returns the decoded bytes and, on failure, the text of its error. -/
abbrev MnemonicDecoder := GoString → List Nat × Option GoString

/-- What `Seed` writes to standard output. -/
inductive Out
  /-- The text "Enter existing wallet seed (followed by a blank line): ". -/
  | enterSeed
  /-- The line "Input error: " followed by the text of the error. -/
  | inputError (e : SeedError)
  /-- The line "Invalid seed specified.  Must be a word seed (usually 33 words) using the PGP
  wordlist or hexadecimal value that is at least %d bits and at most %d bits". -/
  | invalidSeed (minBits maxBits : Nat)
  /-- The lines "Seed input successful." and "Hex: %x". -/
  | success (seed : List Nat)
deriving DecidableEq, Repr

/-- The inner scanner loop (lines 110-116): every line up to the first empty one is appended
to `seedStr` after a space.  Returns the accumulated text and the lines left on standard
input; the loop also ends when the input does. -/
def scanBlock : GoString → List GoString → GoString × List GoString
  | seedStr, [] => (seedStr, [])
  | seedStr, line :: rest =>
    if line = [] then (seedStr, rest) else scanBlock (seedStr ++ ' ' :: line) rest

/-- Lines 117-118: the text that is classified and decoded. -/
def normalize (seedStr : GoString) : GoString :=
  collapseSpace (TrimSpace seedStr)

/-- Line 119: the value of `wordCount`. -/
def wordCount (seedStr : GoString) : Nat :=
  CountSpace (normalize seedStr) + 1

/-- Lines 123-125: the argument of `hex.DecodeString`, a `"0"` put in front of a text of odd
length. -/
def hexInput (seedStrTrimmed : GoString) : GoString :=
  if len seedStrTrimmed % 2 ≠ 0 then '0' :: seedStrTrimmed else seedStrTrimmed

/-- The string handed to the decoder of the branch that `Seed` takes. -/
def decoderInput (seedStr : GoString) : GoString :=
  if wordCount seedStr = 1 then hexInput (normalize seedStr) else normalize seedStr

/-- The state of an iteration after the decode step: `seed`, `err`, and what was printed. -/
structure Decoded where
  /-- The variable `seed`. -/
  seed : List Nat
  /-- The variable `err`. -/
  err : Option SeedError
  /-- The output of the step. -/
  out : List Out
deriving DecidableEq, Repr

/-- Lines 123-129, the hex branch: pad to an even length, decode, print the error if any. -/
def hexBranch (seedStrTrimmed : GoString) : Decoded :=
  match DecodeString (hexInput seedStrTrimmed) with
  | (seed, some e) => ⟨seed, some e, [.inputError e]⟩
  | (seed, none) => ⟨seed, none, []⟩

/-- Lines 131-134, the mnemonic branch: decode, print the error if any. -/
def mnemonicBranch (dm : MnemonicDecoder) (seedStrTrimmed : GoString) : Decoded :=
  match dm seedStrTrimmed with
  | (seed, some msg) => ⟨seed, some (.mnemonic msg), [.inputError (.mnemonic msg)]⟩
  | (seed, none) => ⟨seed, none, []⟩

/-- Lines 117-135: normalise, count, and decode in the hex branch when `wordCount` is 1, in
the mnemonic branch otherwise. -/
def decodeSeed (dm : MnemonicDecoder) (seedStr : GoString) : Decoded :=
  let seedStrTrimmed := collapseSpace (TrimSpace seedStr)
  let wordCount := CountSpace seedStrTrimmed + 1
  if wordCount = 1 then hexBranch seedStrTrimmed else mnemonicBranch dm seedStrTrimmed

/-- How an iteration of the outer loop ends. -/
inductive Outcome
  /-- The statement `return seed, nil`. -/
  | returned (seed : List Nat)
  /-- The statement `continue`. -/
  | restart
deriving DecidableEq, Repr

/-- Lines 136-148: the check of the decode outcome `(seed, err)`. -/
def validate (seed : List Nat) (err : Option SeedError) : Outcome × List Out :=
  if err ≠ none ∨ seed.length < MinSeedBytes ∨ seed.length > MaxSeedBytes then
    (.restart, [.invalidSeed (MinSeedBytes * 8) (MaxSeedBytes * 8)])
  else
    (.returned seed, [.success seed])

/-- One iteration of the outer loop after the block has been read (lines 117-148). -/
def seedIteration (dm : MnemonicDecoder) (seedStr : GoString) : Outcome × List Out :=
  let d := decodeSeed dm seedStr
  ((validate d.seed d.err).1, d.out ++ (validate d.seed d.err).2)

/-- The state of a run of `Seed` that is observed after a number of iterations. -/
inductive Run
  /-- The function `Seed` has returned `seed, nil`. -/
  | finished (seed : List Nat)
  /-- The function `Seed` is at the top of its loop, about to print the prompt again. -/
  | looping (stdin : List GoString)
deriving DecidableEq, Repr

/-- The function `Seed`, run for at most `n` iterations of its outer loop on the given
standard input: the state reached and everything printed so far.  The parameter `reader` of
the Go function is not used by it; every iteration scans `os.Stdin` with a new scanner. -/
def Seed (dm : MnemonicDecoder) : Nat → List GoString → Run × List Out
  | 0, stdin => (.looping stdin, [])
  | n + 1, stdin =>
    let block := scanBlock [] stdin
    let it := seedIteration dm block.1
    match it.1 with
    | .returned seed => (.finished seed, .enterSeed :: it.2)
    | .restart => ((Seed dm n block.2).1, .enterSeed :: it.2 ++ (Seed dm n block.2).2)

/-! ## Notions of the specification -/

/-- The tokens of a text: its maximal runs of non-whitespace characters. -/
def tokens (s : GoString) : List GoString :=
  (s.splitOnP IsSpace).filter (fun t => !t.isEmpty)

/-- The ASCII letters `A` to `Z`. -/
def isUpper (c : Char) : Bool :=
  0x41 ≤ c.toNat && c.toNat ≤ 0x5A

/-- The lowercase form of an ASCII letter `A` to `Z`; any other code point is kept. -/
def toLowerChar (c : Char) : Char :=
  if isUpper c then Char.ofNat (c.toNat + 0x20) else c

/-- Folding of the ASCII letters of a text to lowercase. -/
def toLowerASCII (s : GoString) : GoString :=
  s.map toLowerChar

/-- Modelled from the spec: the word lookup of the mnemonic decoder of section 4.2, whose code
(`walletseed.DecodeFrenchUserInput`) is not among the sources.  Each token is looked up in
the word list as it is written; its index is the byte.  A token that is absent from the list
fails with `UnknownWord(token)`, recorded by the token, and no bytes. -/
def lookupWords (wordlist : List GoString) : List GoString → List Nat × Option GoString
  | [] => ([], none)
  | w :: rest =>
    if w ∈ wordlist then
      match lookupWords wordlist rest with
      | (decoded, none) => (wordlist.indexOf w :: decoded, none)
      | (_, some e) => ([], some e)
    else ([], some w)

/-- Modelled from the spec: the mnemonic decoder of section 4.2, whose code
(`walletseed.DecodeFrenchUserInput`) is not among the sources.  The input is split at ASCII
spaces and the tokens are looked up in the word list, which is a parameter; an input without
tokens fails with `EmptyInput`. -/
def specDecodeMnemonic (wordlist : List GoString) : MnemonicDecoder :=
  fun input =>
    if input = [] then ([], some "empty input".toList)
    else lookupWords wordlist (input.splitOn ' ')

/-- A word list of two lowercase words for the examples. -/
def sampleWords : List GoString :=
  ["aardvark".toList, "absurd".toList]

/-! ## Auxiliary definitions for the proofs -/

/-- The output of the loop of `collapseSpace` without the accumulator: what the loop appends
to `out` when it runs over `s` with the flag `whiteSpace` set to `ws`. -/
def collapseFrom : Bool → GoString → GoString
  | _, [] => []
  | ws, c :: rest =>
    if IsSpace c then (if ws then collapseFrom true rest else ' ' :: collapseFrom true rest)
    else c :: collapseFrom false rest

/-- The number of characters of `s` that start a token, where `prev` tells whether the
character before `s` is white space (or `s` is the start of the text). -/
def tokenStarts : Bool → GoString → Nat
  | _, [] => 0
  | prev, c :: rest =>
    if IsSpace c then tokenStarts true rest
    else (if prev then 1 else 0) + tokenStarts false rest

/-- Folding of one byte: the ASCII letters `A` to `Z` to lowercase. -/
def lowerByte (b : Nat) : Nat :=
  if 0x41 ≤ b ∧ b ≤ 0x5A then b + 0x20 else b

/-- The output of `n` iterations that each print the prompt and the validation failure. -/
def failedRounds : Nat → List Out
  | 0 => []
  | n + 1 => .enterSeed :: .invalidSeed (MinSeedBytes * 8) (MaxSeedBytes * 8) :: failedRounds n

/-- A mnemonic decoder for the examples: it knows no word and rejects every text. -/
def rejectAll : MnemonicDecoder :=
  fun _ => ([], some "unknown word".toList)

/-- A block of 32 hexadecimal digits followed by two characters that are no digits. -/
def sixteenThenBad : GoString :=
  "000102030405060708090a0b0c0d0e0fzz".toList

/-! ## Lemmas -/

theorem isSpace_space : IsSpace ' ' = true := by decide

theorem collapseSpaceLoop_eq (ws : Bool) (out s : GoString) :
    collapseSpaceLoop ws out s = out ++ collapseFrom ws s := by
  induction s generalizing ws out with
  | nil => simp [collapseSpaceLoop, collapseFrom]
  | cons c rest ih =>
    by_cases hc : IsSpace c = true
    · cases ws <;> simp [collapseSpaceLoop, collapseFrom, hc, ih]
    · simp [collapseSpaceLoop, collapseFrom, hc, ih]

theorem collapseSpace_eq (s : GoString) : collapseSpace s = collapseFrom false s := by
  simp [collapseSpace, collapseSpaceLoop_eq]

theorem filter_collapseFrom (ws : Bool) (s : GoString) :
    (collapseFrom ws s).filter (fun c => !IsSpace c) = s.filter (fun c => !IsSpace c) := by
  induction s generalizing ws with
  | nil => simp [collapseFrom]
  | cons c rest ih =>
    by_cases hc : IsSpace c = true
    · cases ws <;> simp [collapseFrom, hc, ih, isSpace_space]
    · simp [collapseFrom, hc, ih]

theorem collapseFrom_space_eq (ws : Bool) (s : GoString) :
    ∀ c ∈ collapseFrom ws s, IsSpace c = true → c = ' ' := by
  induction s generalizing ws with
  | nil => simp [collapseFrom]
  | cons a rest ih =>
    intro c hc hsp
    by_cases ha : IsSpace a = true
    · cases ws
      · simp only [collapseFrom, ha, if_true, Bool.false_eq_true, if_false,
          List.mem_cons] at hc
        rcases hc with rfl | hc
        · rfl
        · exact ih true c hc hsp
      · simp only [collapseFrom, ha, if_true] at hc
        exact ih true c hc hsp
    · simp only [collapseFrom, ha, Bool.false_eq_true, if_false, List.mem_cons] at hc
      rcases hc with rfl | hc
      · exact absurd hsp ha
      · exact ih false c hc hsp

theorem collapseFrom_true_head (s : GoString) :
    ∀ c ∈ (collapseFrom true s).head?, IsSpace c = false := by
  induction s with
  | nil => simp [collapseFrom]
  | cons a rest ih =>
    by_cases ha : IsSpace a = true
    · simpa [collapseFrom, ha] using ih
    · simp [collapseFrom, ha]

theorem collapseFrom_chain (ws : Bool) (s : GoString) :
    List.Chain' (fun a b => ¬(IsSpace a = true ∧ IsSpace b = true)) (collapseFrom ws s) := by
  induction s generalizing ws with
  | nil => simp [collapseFrom]
  | cons a rest ih =>
    by_cases ha : IsSpace a = true
    · cases ws
      · simp only [collapseFrom, ha, if_true, Bool.false_eq_true, if_false]
        rw [List.chain'_cons']
        refine ⟨?_, ih true⟩
        intro y hy
        have := collapseFrom_true_head rest y hy
        simp [this]
      · simpa [collapseFrom, ha] using ih true
    · simp only [collapseFrom, ha, Bool.false_eq_true, if_false]
      rw [List.chain'_cons']
      refine ⟨?_, ih false⟩
      intro y _
      simp [ha]

theorem collapseFrom_getLast (ws : Bool) (s : GoString) (hs : s ≠ [])
    (hl : IsSpace (s.getLast hs) = false) :
    ∃ h : collapseFrom ws s ≠ [], (collapseFrom ws s).getLast h = s.getLast hs := by
  induction s generalizing ws with
  | nil => exact absurd rfl hs
  | cons a rest ih =>
    cases rest with
    | nil =>
      have ha : IsSpace a = false := by simpa using hl
      simp [collapseFrom, ha]
    | cons b rest2 =>
      have hl2 : IsSpace ((b :: rest2).getLast (by simp)) = false := by
        simpa [List.getLast_cons] using hl
      by_cases ha : IsSpace a = true
      · cases ws
        · obtain ⟨h1, h2⟩ := ih true (by simp) hl2
          have e : collapseFrom false (a :: b :: rest2) = ' ' :: collapseFrom true (b :: rest2) := by
            simp [collapseFrom, ha]
          refine ⟨by simp [e], ?_⟩
          simp only [e, List.getLast_cons h1, h2, List.getLast_cons (List.cons_ne_nil b rest2)]
        · obtain ⟨h1, h2⟩ := ih true (by simp) hl2
          have e : collapseFrom true (a :: b :: rest2) = collapseFrom true (b :: rest2) := by
            simp [collapseFrom, ha]
          refine ⟨by simpa [e] using h1, ?_⟩
          simp only [e, h2, List.getLast_cons (List.cons_ne_nil b rest2)]
      · obtain ⟨h1, h2⟩ := ih false (by simp) hl2
        have e : collapseFrom ws (a :: b :: rest2) = a :: collapseFrom false (b :: rest2) := by
          simp [collapseFrom, ha]
        refine ⟨by simp [e], ?_⟩
        simp only [e, List.getLast_cons h1, h2, List.getLast_cons (List.cons_ne_nil b rest2)]

theorem collapseFrom_idem (ws : Bool) (s : GoString) :
    collapseFrom ws (collapseFrom ws s) = collapseFrom ws s := by
  induction s generalizing ws with
  | nil => simp [collapseFrom]
  | cons a rest ih =>
    by_cases ha : IsSpace a = true
    · cases ws
      · simp [collapseFrom, ha, isSpace_space, ih true]
      · simp [collapseFrom, ha, ih true]
    · simp [collapseFrom, ha, ih false]

/-- The trimmed text is empty or starts with a character that is not white space. -/
theorem trimSpace_head (s : GoString) : ∀ c ∈ (TrimSpace s).head?, IsSpace c = false := by
  intro c hc
  have hpre : TrimSpace s <+: s.dropWhile IsSpace := List.rdropWhile_prefix _ _
  obtain ⟨t, ht⟩ := hpre
  cases hT : TrimSpace s with
  | nil => simp [hT] at hc
  | cons a rest =>
    rw [hT] at hc ht
    simp only [List.head?_cons, Option.mem_def, Option.some.injEq] at hc
    subst hc
    have hne : s.dropWhile IsSpace ≠ [] := by rw [← ht]; simp
    have h0 := List.head_dropWhile_not IsSpace s hne
    have : (s.dropWhile IsSpace).head hne = a := by
      simp [← ht]
    rw [this] at h0
    simpa using h0

/-- The trimmed text is empty or ends with a character that is not white space. -/
theorem trimSpace_getLast (s : GoString) (h : TrimSpace s ≠ []) :
    IsSpace ((TrimSpace s).getLast h) = false := by
  have := List.rdropWhile_last_not IsSpace (s.dropWhile IsSpace) h
  simpa [TrimSpace] using this

theorem trimSpace_eq_self (t : GoString) (hh : ∀ c ∈ t.head?, IsSpace c = false)
    (hl : ∀ c ∈ t.getLast?, IsSpace c = false) : TrimSpace t = t := by
  have h1 : t.dropWhile IsSpace = t := by
    cases t with
    | nil => rfl
    | cons a rest =>
      have := hh a (by simp)
      simp [List.dropWhile, this]
  unfold TrimSpace
  rw [h1, List.rdropWhile_eq_self_iff]
  intro hne
  have := hl (t.getLast hne) (by simp [List.getLast?_eq_getLast _ hne])
  simp [this]

theorem normalize_eq (s : GoString) : normalize s = collapseFrom false (TrimSpace s) := by
  simp [normalize, collapseSpace_eq]

theorem normalize_head (s : GoString) : ∀ c ∈ (normalize s).head?, IsSpace c = false := by
  intro c hc
  rw [normalize_eq] at hc
  have hh := trimSpace_head s
  cases hT : TrimSpace s with
  | nil => simp [hT, collapseFrom] at hc
  | cons a rest =>
    rw [hT] at hc hh
    have ha : IsSpace a = false := hh a (by simp)
    simp only [collapseFrom, ha, Bool.false_eq_true, if_false, List.head?_cons,
      Option.mem_def, Option.some.injEq] at hc
    rw [← hc]; exact ha

theorem normalize_getLast (s : GoString) : ∀ c ∈ (normalize s).getLast?, IsSpace c = false := by
  intro c hc
  rw [normalize_eq] at hc
  by_cases hT : TrimSpace s = []
  · simp [hT, collapseFrom] at hc
  · obtain ⟨h1, h2⟩ := collapseFrom_getLast false (TrimSpace s) hT (trimSpace_getLast s hT)
    rw [List.getLast?_eq_getLast _ h1, h2] at hc
    simp only [Option.mem_def, Option.some.injEq] at hc
    rw [← hc]; exact trimSpace_getLast s hT

theorem normalize_idem (s : GoString) : normalize (normalize s) = normalize s := by
  have ht : TrimSpace (normalize s) = normalize s :=
    trimSpace_eq_self _ (normalize_head s) (normalize_getLast s)
  rw [normalize_eq (normalize s), ht, normalize_eq s, collapseFrom_idem]

/-! ### Tokens -/

theorem splitOnP_tokenStarts (s : GoString) :
    ∃ h tl, s.splitOnP IsSpace = h :: tl ∧
      tokenStarts true s = (if h = [] then 0 else 1) + (tl.filter (fun t => !t.isEmpty)).length ∧
      tokenStarts false s = (tl.filter (fun t => !t.isEmpty)).length := by
  induction s with
  | nil => exact ⟨[], [], by simp, by simp [tokenStarts], by simp [tokenStarts]⟩
  | cons c rest ih =>
    obtain ⟨h, tl, e, h1, h2⟩ := ih
    by_cases hc : IsSpace c = true
    · refine ⟨[], h :: tl, by simp [List.splitOnP_cons, hc, e], ?_, ?_⟩
      · simp only [tokenStarts, hc, if_true, h1, List.filter_cons]
        cases h <;> simp
        omega
      · simp only [tokenStarts, hc, if_true, h1, List.filter_cons]
        cases h <;> simp
        omega
    · refine ⟨c :: h, tl, by simp [List.splitOnP_cons, hc, e], ?_, ?_⟩
      · simp [tokenStarts, hc, h2]
      · simp [tokenStarts, hc, h2]

theorem tokens_length (s : GoString) : (tokens s).length = tokenStarts true s := by
  obtain ⟨h, tl, e, h1, _⟩ := splitOnP_tokenStarts s
  rw [tokens, e]
  cases h with
  | nil => simp at h1 ⊢; exact h1.symm
  | cons a t => simp [List.filter_cons] at h1 ⊢; rw [h1, Nat.add_comm]

theorem tokenStarts_dropWhile (s : GoString) :
    tokenStarts true (s.dropWhile IsSpace) = tokenStarts true s := by
  induction s with
  | nil => rfl
  | cons c rest ih =>
    by_cases hc : IsSpace c = true
    · simp [List.dropWhile, hc, tokenStarts, ih]
    · simp [List.dropWhile, hc]

theorem tokenStarts_spaces (ws : Bool) (r : GoString) (hr : ∀ c ∈ r, IsSpace c = true) :
    tokenStarts ws r = 0 := by
  induction r generalizing ws with
  | nil => rfl
  | cons c rest ih =>
    have hc : IsSpace c = true := hr c (by simp)
    simp only [tokenStarts, hc, if_true]
    exact ih true (fun x hx => hr x (by simp [hx]))

theorem tokenStarts_append_spaces (ws : Bool) (l r : GoString)
    (hr : ∀ c ∈ r, IsSpace c = true) : tokenStarts ws (l ++ r) = tokenStarts ws l := by
  induction l generalizing ws with
  | nil => simpa [tokenStarts] using tokenStarts_spaces ws r hr
  | cons c rest ih =>
    by_cases hc : IsSpace c = true
    · simp [tokenStarts, hc, ih]
    · simp [tokenStarts, hc, ih]

theorem tokenStarts_rdropWhile (ws : Bool) (l : GoString) :
    tokenStarts ws (l.rdropWhile IsSpace) = tokenStarts ws l := by
  induction l using List.reverseRecOn with
  | nil => simp
  | append_singleton l x ih =>
    by_cases hx : IsSpace x = true
    · rw [List.rdropWhile_concat_pos _ _ _ hx, ih]
      exact (tokenStarts_append_spaces ws l [x] (by simpa using hx)).symm
    · rw [List.rdropWhile_concat_neg _ _ _ hx]

theorem tokenStarts_trimSpace (s : GoString) :
    tokenStarts true (TrimSpace s) = tokenStarts true s := by
  rw [TrimSpace, tokenStarts_rdropWhile, tokenStarts_dropWhile]

theorem count_space_cons (c : Char) (s : GoString) (hc : IsSpace c = false) :
    CountSpace (c :: s) = CountSpace s := by
  have : c ≠ ' ' := by
    rintro rfl
    simp [isSpace_space] at hc
  simp [CountSpace, List.count_cons, this]

theorem count_collapseFrom (v : GoString) (hv : v ≠ [])
    (hl : IsSpace (v.getLast hv) = false) :
    CountSpace (collapseFrom true v) + 1 = tokenStarts true v ∧
      CountSpace (collapseFrom false v) = tokenStarts false v := by
  induction v with
  | nil => exact absurd rfl hv
  | cons a rest ih =>
    cases rest with
    | nil =>
      have ha : IsSpace a = false := by simpa using hl
      have hc := count_space_cons a [] ha
      simp only [CountSpace, List.count_nil] at hc
      simp [collapseFrom, tokenStarts, ha, CountSpace, hc]
    | cons b rest2 =>
      have hl2 : IsSpace ((b :: rest2).getLast (by simp)) = false := by
        simpa [List.getLast_cons] using hl
      obtain ⟨h1, h2⟩ := ih (by simp) hl2
      by_cases ha : IsSpace a = true
      · constructor
        · have e : collapseFrom true (a :: b :: rest2) = collapseFrom true (b :: rest2) := by
            simp [collapseFrom, ha]
          have t : tokenStarts true (a :: b :: rest2) = tokenStarts true (b :: rest2) := by
            simp [tokenStarts, ha]
          rw [e, t, h1]
        · have e : collapseFrom false (a :: b :: rest2) = ' ' :: collapseFrom true (b :: rest2) := by
            simp [collapseFrom, ha]
          have t : tokenStarts false (a :: b :: rest2) = tokenStarts true (b :: rest2) := by
            simp [tokenStarts, ha]
          rw [e, t, ← h1]
          simp [CountSpace]
      · have ha2 : IsSpace a = false := by simpa using ha
        have e : ∀ ws, collapseFrom ws (a :: b :: rest2) = a :: collapseFrom false (b :: rest2) := by
          intro ws; simp [collapseFrom, ha]
        constructor
        · have t : tokenStarts true (a :: b :: rest2) = 1 + tokenStarts false (b :: rest2) := by
            simp [tokenStarts, ha]
          rw [e, t, count_space_cons _ _ ha2, h2]; omega
        · have t : tokenStarts false (a :: b :: rest2) = tokenStarts false (b :: rest2) := by
            simp [tokenStarts, ha]
          rw [e, t, count_space_cons _ _ ha2, h2]

theorem wordCount_eq_tokenStarts (s : GoString) (h : 1 ≤ tokenStarts true s) :
    wordCount s = tokenStarts true s := by
  have hT := tokenStarts_trimSpace s
  have hh := trimSpace_head s
  by_cases hv : TrimSpace s = []
  · rw [hv] at hT
    simp only [tokenStarts] at hT
    omega
  · have hc := (count_collapseFrom (TrimSpace s) hv (trimSpace_getLast s hv)).2
    rw [wordCount, normalize_eq, hc, ← hT]
    cases hT2 : TrimSpace s with
    | nil => exact absurd hT2 hv
    | cons a rest =>
      rw [hT2] at hh
      have ha : IsSpace a = false := hh a (by simp)
      simp [tokenStarts, ha]
      omega

/-! ### Text without white space -/

theorem collapseFrom_of_noSpace (ws : Bool) (s : GoString) (h : ∀ c ∈ s, IsSpace c = false) :
    collapseFrom ws s = s := by
  induction s generalizing ws with
  | nil => rfl
  | cons a rest ih =>
    have ha : IsSpace a = false := h a (by simp)
    simp [collapseFrom, ha, ih false (fun x hx => h x (by simp [hx]))]

theorem normalize_of_noSpace (s : GoString) (h : ∀ c ∈ s, IsSpace c = false) :
    normalize s = s := by
  have ht : TrimSpace s = s :=
    trimSpace_eq_self s (fun c hc => h c (List.mem_of_mem_head? hc))
      (fun c hc => h c (List.mem_of_mem_getLast? hc))
  rw [normalize_eq, ht, collapseFrom_of_noSpace false s h]

theorem countSpace_of_noSpace (s : GoString) (h : ∀ c ∈ s, IsSpace c = false) :
    CountSpace s = 0 := by
  induction s with
  | nil => rfl
  | cons a rest ih =>
    rw [count_space_cons a rest (h a (by simp))]
    exact ih (fun x hx => h x (by simp [hx]))

theorem wordCount_of_noSpace (s : GoString) (h : ∀ c ∈ s, IsSpace c = false) :
    wordCount s = 1 := by
  rw [wordCount, normalize_of_noSpace s h, countSpace_of_noSpace s h]

theorem decodeSeed_eq (dm : MnemonicDecoder) (s : GoString) :
    decodeSeed dm s =
      if wordCount s = 1 then hexBranch (normalize s) else mnemonicBranch dm (normalize s) := by
  rfl

theorem hexBranch_of_ok (t : GoString) (seed : List Nat)
    (h : DecodeString (hexInput t) = (seed, none)) : hexBranch t = ⟨seed, none, []⟩ := by
  simp [hexBranch, h]

theorem hexBranch_seed (t : GoString) : (hexBranch t).seed = (DecodeString (hexInput t)).1 := by
  unfold hexBranch
  split <;> rename_i h <;> simp [h]

theorem hexBranch_err (t : GoString) : (hexBranch t).err = (DecodeString (hexInput t)).2 := by
  unfold hexBranch
  split <;> rename_i h <;> simp [h]

/-! ### Hexadecimal digits -/

theorem bytes_cons (c : Char) (s : GoString) : bytes (c :: s) = encodeRune c ++ bytes s := by
  simp [bytes]

theorem len_cons_ascii (c : Char) (s : GoString) (hc : c.toNat < 0x80) :
    len (c :: s) = len s + 1 := by
  simp [len, bytes_cons, encodeRune, hc]

theorem hextable_spec : ∀ i, i < 16 →
    (hextable i).toNat < 0x80 ∧ reverseHexTable (hextable i).toNat = i ∧
      IsSpace (hextable i) = false := by
  decide

set_option maxRecDepth 100000 in
theorem byte_of_nibbles : ∀ v, v < 256 →
    v >>> 4 < 16 ∧ v &&& 0x0f < 16 ∧ ((v >>> 4) <<< 4) % 0x100 ||| (v &&& 0x0f) = v := by
  decide

theorem encodeToString_noSpace (b : List Nat) (hb : ∀ x ∈ b, x < 256) :
    ∀ c ∈ EncodeToString b, IsSpace c = false := by
  induction b with
  | nil => simp [EncodeToString]
  | cons v rest ih =>
    have hv := byte_of_nibbles v (hb v (by simp))
    intro c hc
    simp only [EncodeToString, List.mem_cons] at hc
    rcases hc with rfl | rfl | hc
    · exact (hextable_spec _ hv.1).2.2
    · exact (hextable_spec _ hv.2.1).2.2
    · exact ih (fun x hx => hb x (by simp [hx])) c hc

theorem bytes_encodeToString (v : Nat) (rest : List Nat) (hv : v < 256) :
    bytes (EncodeToString (v :: rest)) =
      (hextable (v >>> 4)).toNat :: (hextable (v &&& 0x0f)).toNat ::
        bytes (EncodeToString rest) := by
  have h := byte_of_nibbles v hv
  have h1 := (hextable_spec _ h.1).1
  have h2 := (hextable_spec _ h.2.1).1
  simp [EncodeToString, bytes_cons, encodeRune, h1, h2]

theorem len_encodeToString (b : List Nat) (hb : ∀ x ∈ b, x < 256) :
    len (EncodeToString b) = 2 * b.length := by
  induction b with
  | nil => rfl
  | cons v rest ih =>
    have := ih (fun x hx => hb x (by simp [hx]))
    rw [len] at this ⊢
    rw [bytes_encodeToString v rest (hb v (by simp))]
    simp [this]
    omega

theorem decode_encodeToString (b : List Nat) (hb : ∀ x ∈ b, x < 256) :
    DecodeString (EncodeToString b) = (b, none) := by
  induction b with
  | nil => rfl
  | cons v rest ih =>
    have ih2 := ih (fun x hx => hb x (by simp [hx]))
    have hv := byte_of_nibbles v (hb v (by simp))
    have h1 := (hextable_spec _ hv.1).2.1
    have h2 := (hextable_spec _ hv.2.1).2.1
    rw [DecodeString] at ih2 ⊢
    rw [bytes_encodeToString v rest (hb v (by simp))]
    have g1 : ¬ (v >>> 4 > 15) := by omega
    have g2 : ¬ (v &&& 15 > 15) := by omega
    simp only [Decode, h1, h2, g1, g2, if_false, ih2, hv.2.2]

theorem pairs_induction {P : List Nat → Prop} (h0 : P []) (h1 : ∀ p, P [p])
    (h2 : ∀ p q rest, P rest → P (p :: q :: rest)) : ∀ l, P l
  | [] => h0
  | [p] => h1 p
  | p :: q :: rest => h2 p q rest (pairs_induction h0 h1 h2 rest)

theorem decode_ok_digits (bs : List Nat) (h : (Decode bs).2 = none) :
    ∀ b ∈ bs, reverseHexTable b ≤ 0x0f := by
  induction bs using pairs_induction with
  | h0 => simp
  | h1 p =>
    simp only [Decode] at h
    split at h <;> simp at h
  | h2 p q rest ih =>
    simp only [Decode] at h
    by_cases hp : reverseHexTable p > 0x0f
    · simp [hp] at h
    · by_cases hq : reverseHexTable q > 0x0f
      · simp [hp, hq] at h
      · simp only [hp, hq, if_false] at h
        intro b hb
        simp only [List.mem_cons] at hb
        rcases hb with rfl | rfl | hb
        · omega
        · omega
        · exact ih h b hb

theorem decode_even_length (bs : List Nat) (h : bs.length % 2 = 0) :
    (Decode bs).2 ≠ some .errLength := by
  induction bs using pairs_induction with
  | h0 => simp [Decode]
  | h1 p => simp at h
  | h2 p q rest ih =>
    have h2 : rest.length % 2 = 0 := by
      simp only [List.length_cons] at h
      omega
    simp only [Decode]
    by_cases hp : reverseHexTable p > 0x0f
    · simp [hp]
    · by_cases hq : reverseHexTable q > 0x0f
      · simp [hp, hq]
      · simp only [hp, hq, if_false]
        exact ih h2

theorem encodeRune_head_not_digit (c : Char) (hc : ¬ c.toNat < 0x80) :
    ∃ b ∈ encodeRune c, ¬ reverseHexTable b ≤ 0x0f := by
  by_cases h1 : c.toNat < 0x800
  · refine ⟨0xC0 + c.toNat / 0x40, by simp [encodeRune, hc, h1], ?_⟩
    simp only [reverseHexTable]
    split_ifs <;> omega
  · by_cases h2 : c.toNat < 0x10000
    · refine ⟨0xE0 + c.toNat / 0x1000, by simp [encodeRune, hc, h1, h2], ?_⟩
      simp only [reverseHexTable]
      split_ifs <;> omega
    · refine ⟨0xF0 + c.toNat / 0x40000, by simp [encodeRune, hc, h1, h2], ?_⟩
      simp only [reverseHexTable]
      split_ifs <;> omega

theorem isSpace_of_digit (c : Char) (hc : c.toNat < 0x80)
    (hd : reverseHexTable c.toNat ≤ 0x0f) : IsSpace c = false := by
  simp only [reverseHexTable] at hd
  have hr : (0x30 ≤ c.toNat ∧ c.toNat ≤ 0x39) ∨ (0x61 ≤ c.toNat ∧ c.toNat ≤ 0x66) ∨
      (0x41 ≤ c.toNat ∧ c.toNat ≤ 0x46) := by
    split_ifs at hd <;> omega
  have h255 : c.toNat ≤ 0xFF := by omega
  simp only [IsSpace, h255, if_true]
  simp only [Bool.or_eq_false_iff, beq_eq_false_iff_ne, ne_eq]
  omega

theorem noSpace_of_decode_ok (s : GoString) (h : (DecodeString s).2 = none) :
    ∀ c ∈ s, c.toNat < 0x80 ∧ IsSpace c = false := by
  intro c hc
  have hd := decode_ok_digits (bytes s) h
  have hsub : ∀ b ∈ encodeRune c, reverseHexTable b ≤ 0x0f := by
    intro b hb
    apply hd b
    simp only [bytes, List.mem_flatMap]
    exact ⟨c, hc, hb⟩
  by_cases h80 : c.toNat < 0x80
  · refine ⟨h80, isSpace_of_digit c h80 ?_⟩
    apply hsub
    simp [encodeRune, h80]
  · obtain ⟨b, hb, hnb⟩ := encodeRune_head_not_digit c h80
    exact absurd (hsub b hb) hnb

theorem len_hexInput (t : GoString) : len (hexInput t) % 2 = 0 := by
  unfold hexInput
  split_ifs with h
  · rw [len_cons_ascii _ _ (by decide)]
    omega
  · omega

/-! ### Letter case -/

theorem isUpper_iff (c : Char) : isUpper c = true ↔ 0x41 ≤ c.toNat ∧ c.toNat ≤ 0x5A := by
  simp [isUpper]

theorem toNat_ofNat_small : ∀ k, k < 128 → (Char.ofNat k).toNat = k := by
  decide

theorem toLowerChar_toNat (c : Char) (h : isUpper c = true) :
    (toLowerChar c).toNat = c.toNat + 0x20 := by
  have hr := (isUpper_iff c).1 h
  simp only [toLowerChar, h, if_true]
  exact toNat_ofNat_small _ (by omega)

theorem toLowerChar_of_not_upper (c : Char) (h : ¬ isUpper c = true) : toLowerChar c = c := by
  simp [toLowerChar, h]

theorem isSpace_of_printable (c : Char) (h : 0x21 ≤ c.toNat ∧ c.toNat ≤ 0x7E) :
    IsSpace c = false := by
  have h255 : c.toNat ≤ 0xFF := by omega
  simp only [IsSpace, h255, if_true]
  simp only [Bool.or_eq_false_iff, beq_eq_false_iff_ne, ne_eq]
  omega

theorem isSpace_toLowerChar (c : Char) : IsSpace (toLowerChar c) = IsSpace c := by
  by_cases h : isUpper c = true
  · have hr := (isUpper_iff c).1 h
    have h1 := toLowerChar_toNat c h
    rw [isSpace_of_printable c (by omega), isSpace_of_printable (toLowerChar c) (by omega)]
  · rw [toLowerChar_of_not_upper c h]

theorem toLowerChar_eq_space (c : Char) : toLowerChar c = ' ' ↔ c = ' ' := by
  by_cases h : isUpper c = true
  · have hr := (isUpper_iff c).1 h
    have h1 := toLowerChar_toNat c h
    constructor
    · intro e
      rw [e] at h1
      have : (' ' : Char).toNat = 32 := by decide
      omega
    · intro e
      rw [e] at hr
      have : (' ' : Char).toNat = 32 := by decide
      omega
  · rw [toLowerChar_of_not_upper c h]

theorem isUpper_not_space (c : Char) (h : isUpper c = true) : IsSpace c = false :=
  isSpace_of_printable c (by have := (isUpper_iff c).1 h; omega)

theorem lowerByte_of_ge (b : Nat) (h : 0x5A < b) : lowerByte b = b := by
  simp only [lowerByte]
  split_ifs <;> omega

theorem encodeRune_toLowerChar (c : Char) :
    encodeRune (toLowerChar c) = (encodeRune c).map lowerByte := by
  by_cases h : isUpper c = true
  · have hr := (isUpper_iff c).1 h
    have h1 := toLowerChar_toNat c h
    have a1 : c.toNat < 0x80 := by omega
    have a2 : c.toNat + 0x20 < 0x80 := by omega
    have a3 : lowerByte c.toNat = c.toNat + 0x20 := by simp [lowerByte, hr]
    simp only [encodeRune, a1, a2, if_true, List.map_cons, List.map_nil, a3, h1]
  · rw [toLowerChar_of_not_upper c h]
    have hn : ¬ (0x41 ≤ c.toNat ∧ c.toNat ≤ 0x5A) := fun hh => h ((isUpper_iff c).2 hh)
    simp only [encodeRune]
    split_ifs
    · simp [lowerByte, hn]
    · simp only [List.map_cons, List.map_nil]
      rw [lowerByte_of_ge _ (by omega), lowerByte_of_ge _ (by omega)]
    · simp only [List.map_cons, List.map_nil]
      rw [lowerByte_of_ge _ (by omega), lowerByte_of_ge _ (by omega),
        lowerByte_of_ge _ (by omega)]
    · simp only [List.map_cons, List.map_nil]
      rw [lowerByte_of_ge _ (by omega), lowerByte_of_ge _ (by omega),
        lowerByte_of_ge _ (by omega), lowerByte_of_ge _ (by omega)]

theorem bytes_toLowerASCII (s : GoString) :
    bytes (toLowerASCII s) = (bytes s).map lowerByte := by
  induction s with
  | nil => rfl
  | cons c rest ih =>
    have e : toLowerASCII (c :: rest) = toLowerChar c :: toLowerASCII rest := rfl
    rw [e, bytes_cons, bytes_cons, ih, encodeRune_toLowerChar, List.map_append]

theorem len_toLowerASCII (s : GoString) : len (toLowerASCII s) = len s := by
  simp [len, bytes_toLowerASCII]

theorem reverseHexTable_lowerByte (b : Nat) :
    reverseHexTable (lowerByte b) = reverseHexTable b := by
  simp only [reverseHexTable, lowerByte]
  split_ifs <;> omega

theorem decode_map_lowerByte (bs : List Nat) :
    (Decode (bs.map lowerByte)).1 = (Decode bs).1 ∧
      ((Decode (bs.map lowerByte)).2 = none ↔ (Decode bs).2 = none) := by
  induction bs using pairs_induction with
  | h0 => simp [Decode]
  | h1 p =>
    simp only [List.map_cons, List.map_nil, Decode, reverseHexTable_lowerByte]
    split_ifs <;> simp
  | h2 p q rest ih =>
    simp only [List.map_cons, Decode, reverseHexTable_lowerByte]
    split_ifs
    · simp
    · simp
    · exact ⟨by rw [ih.1], ih.2⟩

theorem dropWhile_toLowerASCII (s : GoString) :
    (toLowerASCII s).dropWhile IsSpace = toLowerASCII (s.dropWhile IsSpace) := by
  induction s with
  | nil => rfl
  | cons c rest ih =>
    simp only [toLowerASCII] at ih ⊢
    by_cases hc : IsSpace c = true
    · simp [List.dropWhile, isSpace_toLowerChar, hc, ih]
    · simp [List.dropWhile, isSpace_toLowerChar, hc]

theorem trimSpace_toLowerASCII (s : GoString) :
    TrimSpace (toLowerASCII s) = toLowerASCII (TrimSpace s) := by
  have hr : ∀ t : GoString,
      (toLowerASCII t).rdropWhile IsSpace = toLowerASCII (t.rdropWhile IsSpace) := by
    intro t
    unfold List.rdropWhile
    have e1 : (toLowerASCII t).reverse = toLowerASCII t.reverse := by
      simp [toLowerASCII, List.map_reverse]
    rw [e1, dropWhile_toLowerASCII]
    simp [toLowerASCII, List.map_reverse]
  rw [TrimSpace, dropWhile_toLowerASCII, hr, TrimSpace]

theorem collapseFrom_toLowerASCII (ws : Bool) (s : GoString) :
    collapseFrom ws (toLowerASCII s) = toLowerASCII (collapseFrom ws s) := by
  induction s generalizing ws with
  | nil => rfl
  | cons c rest ih =>
    have sp : toLowerChar ' ' = ' ' := by decide
    simp only [toLowerASCII] at ih ⊢
    by_cases hc : IsSpace c = true
    · cases ws
      · simp [collapseFrom, isSpace_toLowerChar, hc, ih, sp]
      · simp [collapseFrom, isSpace_toLowerChar, hc, ih]
    · simp [collapseFrom, isSpace_toLowerChar, hc, ih]

theorem normalize_toLowerASCII (s : GoString) :
    normalize (toLowerASCII s) = toLowerASCII (normalize s) := by
  rw [normalize_eq, normalize_eq, trimSpace_toLowerASCII, collapseFrom_toLowerASCII]

theorem countSpace_toLowerASCII (s : GoString) : CountSpace (toLowerASCII s) = CountSpace s := by
  induction s with
  | nil => rfl
  | cons c rest ih =>
    have e : toLowerASCII (c :: rest) = toLowerChar c :: toLowerASCII rest := rfl
    simp only [CountSpace] at ih ⊢
    rw [e, List.count_cons, List.count_cons, ih]
    have := toLowerChar_eq_space c
    by_cases hc : c = ' '
    · have h1 : toLowerChar c = ' ' := this.2 hc
      rw [h1, hc]
    · have h2 : ¬ toLowerChar c = ' ' := fun h => hc (this.1 h)
      simp [hc, h2]

theorem wordCount_toLowerASCII (s : GoString) : wordCount (toLowerASCII s) = wordCount s := by
  rw [wordCount, wordCount, normalize_toLowerASCII, countSpace_toLowerASCII]

theorem hexInput_toLowerASCII (t : GoString) :
    hexInput (toLowerASCII t) = toLowerASCII (hexInput t) := by
  unfold hexInput
  rw [len_toLowerASCII]
  split_ifs
  · rfl
  · rfl

theorem decoderInput_toLowerASCII (s : GoString) :
    decoderInput (toLowerASCII s) = toLowerASCII (decoderInput s) := by
  unfold decoderInput
  rw [wordCount_toLowerASCII, normalize_toLowerASCII, hexInput_toLowerASCII]
  split_ifs <;> rfl

theorem filter_dropWhile (s : GoString) :
    (s.dropWhile IsSpace).filter (fun c => !IsSpace c) = s.filter (fun c => !IsSpace c) := by
  induction s with
  | nil => rfl
  | cons c rest ih =>
    by_cases hc : IsSpace c = true
    · simp [List.dropWhile, hc, ih]
    · simp [List.dropWhile, hc]

theorem filter_rdropWhile (s : GoString) :
    (s.rdropWhile IsSpace).filter (fun c => !IsSpace c) = s.filter (fun c => !IsSpace c) := by
  induction s using List.reverseRecOn with
  | nil => simp
  | append_singleton l x ih =>
    by_cases hx : IsSpace x = true
    · rw [List.rdropWhile_concat_pos _ _ _ hx, ih]
      simp [hx]
    · rw [List.rdropWhile_concat_neg _ _ _ hx]

theorem filter_normalize (s : GoString) :
    (normalize s).filter (fun c => !IsSpace c) = s.filter (fun c => !IsSpace c) := by
  rw [normalize_eq, filter_collapseFrom, TrimSpace, filter_rdropWhile, filter_dropWhile]

theorem filter_isUpper_eq (l : GoString) :
    l.filter isUpper = (l.filter (fun c => !IsSpace c)).filter isUpper := by
  rw [List.filter_filter]
  apply List.filter_congr
  intro c _
  by_cases h : isUpper c = true
  · simp [h, isUpper_not_space c h]
  · simp [h]

theorem filter_isUpper_normalize (s : GoString) :
    (normalize s).filter isUpper = s.filter isUpper := by
  rw [filter_isUpper_eq (normalize s), filter_normalize, ← filter_isUpper_eq]

theorem filter_isUpper_hexInput (t : GoString) : (hexInput t).filter isUpper = t.filter isUpper := by
  unfold hexInput
  split_ifs
  · have : isUpper '0' = false := by decide
    simp [List.filter_cons, this]
  · rfl

/-! ### The iteration -/

theorem trimSpace_of_spaces (s : GoString) (h : ∀ c ∈ s, IsSpace c = true) : TrimSpace s = [] := by
  have : s.dropWhile IsSpace = [] := by
    rw [List.dropWhile_eq_nil_iff]
    exact h
  simp [TrimSpace, this]

theorem trimSpace_space_cons (s : GoString) : TrimSpace (' ' :: s) = TrimSpace s := by
  simp [TrimSpace, List.dropWhile, isSpace_space]

theorem decodeSeed_space_cons (dm : MnemonicDecoder) (s : GoString) :
    decodeSeed dm (' ' :: s) = decodeSeed dm s := by
  simp only [decodeSeed, trimSpace_space_cons]

theorem scanBlock_one_line (line : GoString) (rest : List GoString) (h : line ≠ []) :
    scanBlock [] (line :: [] :: rest) = (' ' :: line, rest) := by
  simp [scanBlock, h]

theorem decodeSeed_one_line (dm : MnemonicDecoder) (line : GoString) (rest : List GoString) :
    decodeSeed dm (scanBlock [] (line :: [] :: rest)).1 = decodeSeed dm line := by
  by_cases h : line = []
  · subst h
    rfl
  · rw [scanBlock_one_line line rest h, decodeSeed_space_cons]

theorem seedIteration_nil (dm : MnemonicDecoder) :
    seedIteration dm [] = (.restart, [.invalidSeed (MinSeedBytes * 8) (MaxSeedBytes * 8)]) := by
  rfl

theorem validate_returned_iff (seed : List Nat) (err : Option SeedError) :
    (validate seed err).1 = .returned seed ↔
      err = none ∧ MinSeedBytes ≤ seed.length ∧ seed.length ≤ MaxSeedBytes := by
  unfold validate
  split_ifs with h
  · simp only [reduceCtorEq, false_iff]
    intro hh
    rcases h with h | h | h
    · exact h hh.1
    · omega
    · omega
  · simp only [true_iff]
    refine ⟨by_contra fun hh => h (Or.inl hh), ?_, ?_⟩ <;> by_contra hh <;> apply h <;> omega

theorem validate_restart (seed : List Nat) (err : Option SeedError)
    (h : ¬(err = none ∧ MinSeedBytes ≤ seed.length ∧ seed.length ≤ MaxSeedBytes)) :
    validate seed err = (.restart, [.invalidSeed (MinSeedBytes * 8) (MaxSeedBytes * 8)]) := by
  unfold validate
  split_ifs with h2
  · rfl
  · exfalso
    apply h
    refine ⟨by_contra fun hh => h2 (Or.inl hh), ?_, ?_⟩ <;> by_contra hh <;> apply h2 <;> omega

theorem seed_step (dm : MnemonicDecoder) (n : Nat) (stdin : List GoString) :
    Seed dm (n + 1) stdin =
      match (seedIteration dm (scanBlock [] stdin).1).1 with
      | .returned seed =>
        (.finished seed, .enterSeed :: (seedIteration dm (scanBlock [] stdin).1).2)
      | .restart =>
        ((Seed dm n (scanBlock [] stdin).2).1,
          .enterSeed :: (seedIteration dm (scanBlock [] stdin).1).2 ++
            (Seed dm n (scanBlock [] stdin).2).2) := by
  rfl

/-- Iterations compose: a run that is at the top of the loop after `k` iterations goes on
from there as a fresh run on the input that is left. -/
theorem seed_add (dm : MnemonicDecoder) (n k : Nat) (stdin left : List GoString)
    (out : List Out) (h : Seed dm k stdin = (.looping left, out)) :
    Seed dm (k + n) stdin = ((Seed dm n left).1, out ++ (Seed dm n left).2) := by
  induction k generalizing stdin out with
  | zero =>
    simp only [Seed, Prod.mk.injEq, Run.looping.injEq] at h
    obtain ⟨h1, h2⟩ := h
    subst h1 h2
    simp
  | succ k ih =>
    have e : k + 1 + n = (k + n) + 1 := by omega
    rw [e, seed_step]
    rw [seed_step] at h
    split at h
    · simp at h
    · rename_i hr
      simp only [Prod.mk.injEq] at h
      obtain ⟨h1, h2⟩ := h
      have := ih (scanBlock [] stdin).2 (Seed dm k (scanBlock [] stdin).2).2 (Prod.ext h1 rfl)
      rw [this, ← h2]
      simp

theorem seed_nil (dm : MnemonicDecoder) (n : Nat) :
    Seed dm n [] = (.looping [], failedRounds n) := by
  induction n with
  | zero => rfl
  | succ k ih =>
    simp only [Seed, scanBlock, seedIteration_nil, ih, failedRounds]
    rfl

/-- The string `decoderInput` is what `Seed` decodes: in the hex branch `seed` and `err` are
the results of `hex.DecodeString` on it, in the mnemonic branch those of the mnemonic decoder
on it. -/
theorem decodeSeed_decoderInput (dm : MnemonicDecoder) (s : GoString) :
    (wordCount s = 1 →
      (decodeSeed dm s).seed = (DecodeString (decoderInput s)).1 ∧
      (decodeSeed dm s).err = (DecodeString (decoderInput s)).2) ∧
    (wordCount s ≠ 1 →
      (decodeSeed dm s).seed = (dm (decoderInput s)).1 ∧
      (decodeSeed dm s).err = (dm (decoderInput s)).2.map SeedError.mnemonic) := by
  constructor
  · intro hw
    rw [decodeSeed_eq, decoderInput, if_pos hw, if_pos hw, hexBranch_seed, hexBranch_err]
    exact ⟨rfl, rfl⟩
  · intro hw
    rw [decodeSeed_eq, decoderInput, if_neg hw, if_neg hw]
    unfold mnemonicBranch
    split <;> rename_i h <;> simp [h]

theorem mem_intercalate (sep : GoString) (ls : List GoString) (c : Char)
    (h : c ∈ sep.intercalate ls) : c ∈ sep ∨ ∃ l ∈ ls, c ∈ l := by
  induction ls with
  | nil => simp [List.intercalate] at h
  | cons l rest ih =>
    cases rest with
    | nil =>
      right
      exact ⟨l, by simp, by simpa [List.intercalate] using h⟩
    | cons m rest2 =>
      have e : sep.intercalate (l :: m :: rest2) = l ++ sep ++ sep.intercalate (m :: rest2) := by
        simp [List.intercalate, List.intersperse]
      rw [e, List.mem_append, List.mem_append] at h
      rcases h with (h | h) | h
      · exact Or.inr ⟨l, by simp, h⟩
      · exact Or.inl h
      · rcases ih h with h2 | ⟨x, hx, hc⟩
        · exact Or.inl h2
        · exact Or.inr ⟨x, by simp [hx], hc⟩

theorem lookupWords_unknown (wordlist : List GoString) (ws : List GoString) (w : GoString)
    (hw : w ∈ ws) (hn : w ∉ wordlist) : (lookupWords wordlist ws).2 ≠ none := by
  induction ws with
  | nil => simp at hw
  | cons a rest ih =>
    by_cases ha : a ∈ wordlist
    · have hr : w ∈ rest := by
        rcases List.mem_cons.1 hw with h | h
        · exact absurd (h ▸ ha) hn
        · exact h
      have := ih hr
      simp only [lookupWords, ha, if_true]
      split
      · rename_i h2
        rw [h2] at this
        exact absurd rfl this
      · simp
    · simp [lookupWords, ha]

/-- With a word list of words without uppercase letters, the decoder of section 4.2 rejects
every block of two or more words that has an uppercase letter: `Seed` hands the block over
with its case unchanged. -/
theorem mixed_case_mnemonic_rejected (wordlist : List GoString) (s : GoString)
    (hl : ∀ w ∈ wordlist, ∀ c ∈ w, isUpper c = false) (hw : wordCount s ≠ 1)
    (hu : ∃ c ∈ s, isUpper c = true) :
    (decodeSeed (specDecodeMnemonic wordlist) s).err ≠ none := by
  obtain ⟨c, hc, hcu⟩ := hu
  have hcn : c ∈ normalize s := by
    have h1 : c ∈ s.filter isUpper := List.mem_filter.2 ⟨hc, hcu⟩
    rw [← filter_isUpper_normalize] at h1
    exact (List.mem_filter.1 h1).1
  have hne : normalize s ≠ [] := List.ne_nil_of_mem hcn
  have hsp : c ∉ [' '] := by
    intro h
    rw [List.mem_singleton] at h
    rw [h] at hcu
    exact absurd hcu (by decide)
  have hsplit : [' '].intercalate ((normalize s).splitOn ' ') = normalize s :=
    List.intercalate_splitOn (normalize s) ' '
  rw [← hsplit] at hcn
  rcases mem_intercalate _ _ _ hcn with h | ⟨w, hwm, hcw⟩
  · exact absurd h hsp
  · have hnw : w ∉ wordlist := by
      intro hin
      have := hl w hin c hcw
      rw [this] at hcu
      exact absurd hcu (by decide)
    rw [decodeSeed_eq, if_neg hw]
    have hd := lookupWords_unknown wordlist _ w hwm hnw
    unfold mnemonicBranch specDecodeMnemonic
    simp only [hne, if_false]
    split
    · simp
    · rename_i h2
      rw [h2] at hd
      exact absurd rfl hd

/-! ## The claims -/

/-- Claim C1. For every decode outcome `(seed, err)`, the check at the end of an iteration
returns the seed exactly when `err` is nil and `16 ≤ len(seed) ≤ 64`; in every other case it
prints the validation failure and restarts.  The same is stated for the whole iteration on any
block text and with any mnemonic decoder.  In particular a block of 32 hexadecimal digits
followed by `zz` is rejected, although 16 bytes were decoded before the failure. -/
theorem seed_accepted_iff_valid (dm : MnemonicDecoder) (seedStr : GoString) (seed : List Nat)
    (err : Option SeedError) :
    ((validate seed err).1 = .returned seed ↔
      err = none ∧ 16 ≤ seed.length ∧ seed.length ≤ 64) ∧
    (¬(err = none ∧ 16 ≤ seed.length ∧ seed.length ≤ 64) →
      validate seed err = (.restart, [.invalidSeed 128 512])) ∧
    ((seedIteration dm seedStr).1 = .returned (decodeSeed dm seedStr).seed ↔
      (decodeSeed dm seedStr).err = none ∧ 16 ≤ (decodeSeed dm seedStr).seed.length ∧
        (decodeSeed dm seedStr).seed.length ≤ 64) ∧
    (¬((decodeSeed dm seedStr).err = none ∧ 16 ≤ (decodeSeed dm seedStr).seed.length ∧
        (decodeSeed dm seedStr).seed.length ≤ 64) →
      seedIteration dm seedStr =
        (.restart, (decodeSeed dm seedStr).out ++ [.invalidSeed 128 512])) ∧
    ((decodeSeed dm sixteenThenBad).seed.length = 16 ∧
      (decodeSeed dm sixteenThenBad).err = some (.invalidByte 0x7a) ∧
      seedIteration dm sixteenThenBad =
        (.restart, [.inputError (.invalidByte 0x7a), .invalidSeed 128 512])) := by
  refine ⟨validate_returned_iff seed err, validate_restart seed err,
    validate_returned_iff _ _, ?_, ?_⟩
  · intro h
    simp only [seedIteration, validate_restart _ _ h]
    rfl
  · refine ⟨?_, ?_, ?_⟩ <;> rfl

/-- Claim C1, at an instance: the one-digit block `1` decodes without error to one byte, which
is below the minimum, so the iteration prints the validation failure and restarts. -/
theorem seed_accepted_iff_valid_witness :
    ¬((decodeSeed rejectAll ['1']).err = none ∧ 16 ≤ (decodeSeed rejectAll ['1']).seed.length ∧
        (decodeSeed rejectAll ['1']).seed.length ≤ 64) ∧
    seedIteration rejectAll ['1'] =
      (.restart, (decodeSeed rejectAll ['1']).out ++ [.invalidSeed 128 512]) :=
  ⟨by decide, (seed_accepted_iff_valid rejectAll ['1'] [] none).2.2.2.1 (by decide)⟩

/-- Claim C2. For every byte sequence `b`, a block whose text is the lowercase hexadecimal
rendering of `b` has `wordCount` 1, so the hex branch is taken; the string handed to the hex
decoder is the rendering itself, and the decode step yields exactly `b` with no error and no
output.  The empty sequence is included.  The same result is reached from standard input, when
the rendering is typed as one line followed by an empty line. -/
theorem hex_round_trip (dm : MnemonicDecoder) (b : List Nat) (hb : ∀ x ∈ b, x < 256) :
    wordCount (EncodeToString b) = 1 ∧
    decoderInput (EncodeToString b) = EncodeToString b ∧
    decodeSeed dm (EncodeToString b) = ⟨b, none, []⟩ ∧
    (∀ rest, decodeSeed dm (scanBlock [] (EncodeToString b :: [] :: rest)).1 =
      ⟨b, none, []⟩) := by
  have hns := encodeToString_noSpace b hb
  have hw := wordCount_of_noSpace _ hns
  have hn := normalize_of_noSpace _ hns
  have hi : hexInput (EncodeToString b) = EncodeToString b := by
    have := len_encodeToString b hb
    unfold hexInput
    split_ifs with h
    · omega
    · rfl
  have hd : decodeSeed dm (EncodeToString b) = ⟨b, none, []⟩ := by
    rw [decodeSeed_eq, if_pos hw, hn]
    apply hexBranch_of_ok
    rw [hi]
    exact decode_encodeToString b hb
  refine ⟨hw, ?_, hd, ?_⟩
  · rw [decoderInput, if_pos hw, hn, hi]
  · intro rest
    rw [decodeSeed_one_line, hd]

/-- Claim C2, at the bytes `00 01 ab ff`: the block `0001abff` decodes back to them. -/
theorem hex_round_trip_witness :
    (∀ x ∈ [0x00, 0x01, 0xab, 0xff], x < 256) ∧
    EncodeToString [0x00, 0x01, 0xab, 0xff] = "0001abff".toList ∧
    decodeSeed rejectAll (EncodeToString [0x00, 0x01, 0xab, 0xff]) =
      ⟨[0x00, 0x01, 0xab, 0xff], none, []⟩ :=
  ⟨by decide, by decide, (hex_round_trip rejectAll [0x00, 0x01, 0xab, 0xff] (by decide)).2.2.1⟩

/-- Claim C3. A block `h` of odd length for which `"0" + h` is valid hexadecimal is decoded by
`Seed` without error, to the bytes that `hex.DecodeString` gives for `"0" + h`, also when `h`
is read from standard input as one line followed by an empty line.  Moreover, for every block
that takes the hex branch, the string handed to the hex decoder has even length and the error
is never `hex.ErrLength`. -/
theorem hex_odd_length_padded (dm : MnemonicDecoder) :
    (∀ h : GoString, len h % 2 = 1 → (DecodeString ('0' :: h)).2 = none →
      wordCount h = 1 ∧ decoderInput h = '0' :: h ∧
        decodeSeed dm h = ⟨(DecodeString ('0' :: h)).1, none, []⟩ ∧
        ∀ rest, decodeSeed dm (scanBlock [] (h :: [] :: rest)).1 =
          ⟨(DecodeString ('0' :: h)).1, none, []⟩) ∧
    (∀ s : GoString, wordCount s = 1 →
      len (decoderInput s) % 2 = 0 ∧ (decodeSeed dm s).err ≠ some .errLength) := by
  constructor
  · intro h hodd hok
    have hns : ∀ c ∈ h, IsSpace c = false := fun c hc =>
      (noSpace_of_decode_ok ('0' :: h) hok c (by simp [hc])).2
    have hw := wordCount_of_noSpace _ hns
    have hn := normalize_of_noSpace _ hns
    have hi : hexInput h = '0' :: h := by
      unfold hexInput
      rw [if_pos (by omega)]
    have hd : decodeSeed dm h = ⟨(DecodeString ('0' :: h)).1, none, []⟩ := by
      rw [decodeSeed_eq, if_pos hw, hn]
      apply hexBranch_of_ok
      rw [hi]
      exact Prod.ext rfl hok
    refine ⟨hw, ?_, hd, ?_⟩
    · rw [decoderInput, if_pos hw, hn, hi]
    · intro rest
      rw [decodeSeed_one_line, hd]
  · intro s hw
    constructor
    · rw [decoderInput, if_pos hw]
      exact len_hexInput _
    · rw [decodeSeed_eq, if_pos hw, hexBranch_err]
      exact decode_even_length _ (len_hexInput _)

/-- Claim C3, at the block `abc`: it is decoded as `0abc`, to the bytes `0a bc`. -/
theorem hex_odd_length_padded_witness :
    len "abc".toList % 2 = 1 ∧ DecodeString "0abc".toList = ([0x0a, 0xbc], none) ∧
    decodeSeed rejectAll "abc".toList = ⟨(DecodeString "0abc".toList).1, none, []⟩ ∧
    wordCount "abc".toList = 1 ∧ len (decoderInput "abc".toList) % 2 = 0 :=
  ⟨by decide, by decide,
    ((hex_odd_length_padded rejectAll).1 "abc".toList (by decide) (by decide)).2.2.1,
    by decide, ((hex_odd_length_padded rejectAll).2 "abc".toList (by decide)).1⟩

/-- Claim C4. For a block text with `n ≥ 1` tokens (maximal runs of characters that are not
white space), `wordCount`, the number of ASCII spaces of the trimmed and collapsed text plus
one, equals `n`; with one token `Seed` decodes in the hex branch, with two or more in the
mnemonic branch. -/
theorem wordCount_eq_token_count (dm : MnemonicDecoder) (s : GoString)
    (h : 1 ≤ (tokens s).length) :
    wordCount s = (tokens s).length ∧
    ((tokens s).length = 1 → decodeSeed dm s = hexBranch (normalize s)) ∧
    (2 ≤ (tokens s).length → decodeSeed dm s = mnemonicBranch dm (normalize s)) := by
  rw [tokens_length] at h ⊢
  have hw := wordCount_eq_tokenStarts s h
  refine ⟨hw, ?_, ?_⟩
  · intro h1
    rw [decodeSeed_eq, if_pos (by omega)]
  · intro h2
    rw [decodeSeed_eq, if_neg (by omega)]

/-- Claim C4, at a block of three tokens separated by mixed white space. -/
theorem wordCount_eq_token_count_witness :
    tokens "  ab \t cd\n ef ".toList = ["ab".toList, "cd".toList, "ef".toList] ∧
    wordCount "  ab \t cd\n ef ".toList = 3 ∧
    decodeSeed rejectAll "  ab \t cd\n ef ".toList =
      mnemonicBranch rejectAll "ab cd ef".toList :=
  ⟨by decide,
    (wordCount_eq_token_count rejectAll "  ab \t cd\n ef ".toList (by decide)).1.trans
      (by decide),
    ((wordCount_eq_token_count rejectAll "  ab \t cd\n ef ".toList (by decide)).2.2
      (by decide)).trans (by decide)⟩

/-- Claim C5, on the code: at end of input `Seed` does not terminate.  With standard input
exhausted, after any number `n` of iterations the function is still at the top of its loop: it
has printed the prompt and the validation failure `n` times and has not returned, for every
mnemonic decoder.  More generally, a run that has used up its input after `k` iterations
without returning is still in the loop after any `n` further iterations. -/
theorem seed_loops_at_end_of_input (dm : MnemonicDecoder) (n : Nat) :
    Seed dm n [] = (.looping [], failedRounds n) ∧
    (∀ (k : Nat) (stdin : List GoString) (out : List Out),
      Seed dm k stdin = (.looping [], out) →
        Seed dm (k + n) stdin = (.looping [], out ++ failedRounds n)) := by
  refine ⟨seed_nil dm n, ?_⟩
  intro k stdin out h
  rw [seed_add dm n k stdin [] out h, seed_nil]

/-- Claim C5, at an instance: the input is the single block `1`, which is too short.  After
one iteration the input is used up, and three iterations later `Seed` is still prompting. -/
theorem seed_loops_at_end_of_input_witness :
    Seed rejectAll 1 [['1'], []] = (.looping [], [.enterSeed, .invalidSeed 128 512]) ∧
    Seed rejectAll (1 + 3) [['1'], []] =
      (.looping [], [.enterSeed, .invalidSeed 128 512] ++ failedRounds 3) :=
  ⟨by decide, (seed_loops_at_end_of_input rejectAll 3).2 1 [['1'], []] _ (by decide)⟩

/-- The function `Seed` does return on a valid block: 32 hexadecimal digits and an empty line
give the 16 bytes in the first iteration. -/
theorem seed_returns_valid_hex (dm : MnemonicDecoder) :
    Seed dm 1 ["000102030405060708090a0b0c0d0e0f".toList, []] =
      (.finished [0, 1, 2, 3, 4, 5, 6, 7, 8, 9, 10, 11, 12, 13, 14, 15],
        [.enterSeed, .success [0, 1, 2, 3, 4, 5, 6, 7, 8, 9, 10, 11, 12, 13, 14, 15]]) := by
  rfl

/-- Claim C6, on the code: `Seed` does not fold the block to lowercase.  For the block `AB`
the hex decoder is handed `AB`: it has uppercase letters, it is not the lowercase folding of
the normalized text, and it differs from what is handed over for `ab`.  For the block
`Aardvark Absurd` every mnemonic decoder is handed `Aardvark Absurd` itself; the decoder of
section 4.2 with the words `aardvark` and `absurd` then fails on the word `Aardvark`, while the
lowercased block decodes to the bytes `00 01`. -/
theorem seed_does_not_fold_case :
    (decoderInput "AB".toList = "AB".toList ∧
      (decoderInput "AB".toList).any isUpper = true ∧
      decoderInput "AB".toList ≠ toLowerASCII (normalize "AB".toList) ∧
      decoderInput "AB".toList ≠ decoderInput "ab".toList) ∧
    (decoderInput "Aardvark Absurd".toList = "Aardvark Absurd".toList ∧
      decoderInput "Aardvark Absurd".toList ≠ decoderInput "aardvark absurd".toList ∧
      (∀ dm : MnemonicDecoder, decodeSeed dm "Aardvark Absurd".toList =
        mnemonicBranch dm "Aardvark Absurd".toList)) ∧
    (decodeSeed (specDecodeMnemonic sampleWords) "Aardvark Absurd".toList =
        ⟨[], some (.mnemonic "Aardvark".toList), [.inputError (.mnemonic "Aardvark".toList)]⟩ ∧
      decodeSeed (specDecodeMnemonic sampleWords) "aardvark absurd".toList =
        ⟨[0, 1], none, []⟩) := by
  refine ⟨by decide, ⟨by decide, by decide, fun dm => ?_⟩, by decide, by decide⟩
  rw [decodeSeed_eq, if_neg (by decide)]
  exact congrArg (mnemonicBranch dm) (by decide)

/-- The hex branch does not depend on the case of the block.  `Seed` hands the uppercase
letters of the block to the decoder unchanged and in order; folding the ASCII letters of the
block to lowercase leaves `wordCount`, hence the branch, unchanged and folds the string handed
over; in the hex branch the block and its folded form decode to the same bytes and fail or
succeed together, because the hex decoder reads the digits `A` to `F` as `a` to `f`. -/
theorem case_kept_hex_case_insensitive (dm : MnemonicDecoder) (s : GoString) :
    (decoderInput s).filter isUpper = s.filter isUpper ∧
    wordCount (toLowerASCII s) = wordCount s ∧
    decoderInput (toLowerASCII s) = toLowerASCII (decoderInput s) ∧
    (wordCount s = 1 →
      (decodeSeed dm (toLowerASCII s)).seed = (decodeSeed dm s).seed ∧
      ((decodeSeed dm (toLowerASCII s)).err = none ↔ (decodeSeed dm s).err = none)) := by
  refine ⟨?_, wordCount_toLowerASCII s, decoderInput_toLowerASCII s, ?_⟩
  · unfold decoderInput
    split_ifs
    · rw [filter_isUpper_hexInput, filter_isUpper_normalize]
    · rw [filter_isUpper_normalize]
  · intro hw
    have hw2 : wordCount (toLowerASCII s) = 1 := by rw [wordCount_toLowerASCII, hw]
    rw [decodeSeed_eq, decodeSeed_eq, if_pos hw, if_pos hw2, hexBranch_seed, hexBranch_seed,
      hexBranch_err, hexBranch_err, normalize_toLowerASCII, hexInput_toLowerASCII]
    simp only [DecodeString, bytes_toLowerASCII]
    exact decode_map_lowerByte _

/-- Claim C7. For every string `s`, the text `collapseSpace(strings.TrimSpace(s))` has no two
adjacent white space characters, every white space character in it is an ASCII space, and its
first and its last character, if any, are not white space. -/
theorem normalize_whitespace (s : GoString) :
    (∀ a b, [a, b] <:+: normalize s → ¬(IsSpace a = true ∧ IsSpace b = true)) ∧
    (∀ c ∈ normalize s, IsSpace c = true → c = ' ') ∧
    (∀ c ∈ (normalize s).head?, IsSpace c = false) ∧
    (∀ c ∈ (normalize s).getLast?, IsSpace c = false) := by
  refine ⟨?_, ?_, normalize_head s, normalize_getLast s⟩
  · intro a b hab
    have hc := collapseFrom_chain false (TrimSpace s)
    rw [← normalize_eq] at hc
    have := hc.infix hab
    simpa using this
  · rw [normalize_eq]
    exact collapseFrom_space_eq false _

/-- Claim C7, at an instance with tabs, a line feed and a no-break space. -/
theorem normalize_whitespace_witness :
    normalize " \t ab\n\n  \u00a0c d\t".toList = "ab c d".toList ∧
    (∀ c ∈ normalize " \t ab\n\n  \u00a0c d\t".toList, IsSpace c = true → c = ' ') :=
  ⟨by decide, (normalize_whitespace " \t ab\n\n  \u00a0c d\t".toList).2.1⟩

/-- Claim C8. Normalization is idempotent: applying `collapseSpace(strings.TrimSpace(·))` to
its own result gives that result again, for every string. -/
theorem normalize_idempotent (s : GoString) : normalize (normalize s) = normalize s :=
  normalize_idem s

/-- Claim C9. For every string `s`, the characters of `collapseSpace(s)` that are not white
space are those of `s`, in the same order and unchanged. -/
theorem collapseSpace_keeps_non_space (s : GoString) :
    (collapseSpace s).filter (fun c => !IsSpace c) = s.filter (fun c => !IsSpace c) := by
  rw [collapseSpace_eq]
  exact filter_collapseFrom false s

/-- Claim C10. For a block whose accumulated text is empty or only white space, the text has
no token, the decode step gives the empty seed with no error and prints nothing, and the
iteration prints the validation failure and restarts: it returns no seed and prints no
"Input error:" line, whatever the mnemonic decoder is. -/
theorem blank_block_restarts (dm : MnemonicDecoder) (s : GoString)
    (h : ∀ c ∈ s, IsSpace c = true) :
    (tokens s).length = 0 ∧
    decodeSeed dm s = ⟨[], none, []⟩ ∧
    seedIteration dm s = (.restart, [.invalidSeed 128 512]) ∧
    (∀ seed, (seedIteration dm s).1 ≠ .returned seed) ∧
    (∀ e, Out.inputError e ∉ (seedIteration dm s).2) := by
  have hd : decodeSeed dm s = ⟨[], none, []⟩ := by
    unfold decodeSeed
    rw [trimSpace_of_spaces s h]
    rfl
  have hi : seedIteration dm s = (.restart, [.invalidSeed 128 512]) := by
    unfold seedIteration
    rw [hd]
    rfl
  refine ⟨?_, hd, hi, ?_, ?_⟩
  · rw [tokens_length]
    exact tokenStarts_spaces true s h
  · intro seed
    rw [hi]
    simp
  · intro e
    rw [hi]
    simp

/-- Claim C10, at the block made of the two lines ` ` and a tab, ended by an empty line. -/
theorem blank_block_restarts_witness :
    (scanBlock [] [" ".toList, "\t".toList, []]).1 = "   \t".toList ∧
    (∀ c ∈ (scanBlock [] [" ".toList, "\t".toList, []]).1, IsSpace c = true) ∧
    seedIteration rejectAll (scanBlock [] [" ".toList, "\t".toList, []]).1 =
      (.restart, [.invalidSeed 128 512]) :=
  ⟨by decide, by decide,
    (blank_block_restarts rejectAll (scanBlock [] [" ".toList, "\t".toList, []]).1
      (by decide)).2.2.1⟩


end TranslateSeed
